import Mathlib

/-
  Verification of the trace-analysis engine in
  src/plugins/tenet/trace/analysis.py (class TraceAnalysis).

  The embedding models Python integers as Int (arbitrary precision, so no
  overflow), trace indices as Nat, and the insertion-ordered Python dicts
  (collections.defaultdict) as association lists in key insertion order.
  The bitmask operation address & 0xFFF is embedded as address % 4096,
  which agrees with Python semantics for every integer.
-/

set_option autoImplicit false

namespace Tenet

/-! ## Bucket dictionaries (collections.defaultdict(list) in insertion order) -/

/-- Append a value to the list stored at a key, creating the entry at the end
when the key is absent.  This models `d[key].append(v)` on a
`collections.defaultdict(list)`, which keeps keys in first-insertion order. -/
def bucketAdd (bs : List (Int × List Int)) (k : Int) (v : Int) : List (Int × List Int) :=
  match bs with
  | [] => [(k, [v])]
  | (k0, l0) :: rest => if k0 = k then (k0, l0 ++ [v]) :: rest else (k0, l0) :: bucketAdd rest k v

/-- Look up the list stored at a key, with the empty list when absent.
This models reading `d[key]` on a defaultdict (absent keys yield `[]`). -/
def bucketFind (bs : List (Int × List Int)) (k : Int) : List Int :=
  match bs with
  | [] => []
  | (k0, l0) :: rest => if k0 = k then l0 else bucketFind rest k

/-- Key membership test, modelling `key in d`. -/
def bucketMem (bs : List (Int × List Int)) (k : Int) : Bool :=
  bs.any (fun p => p.1 == k)

/-! ## Slide detection (`TraceAnalysis._analyze_aslr`) -/

/-- Bucket the disassembler addresses by their low 12 bits
(source lines 80-83 of analysis.py). -/
def binaryBuckets (b : List Int) : List (Int × List Int) :=
  b.foldl (fun bs a => bucketAdd bs (a % 4096) a) []

/-- Bucket the trace addresses that share a low-12-bit bucket with some
binary address; other trace addresses are discarded (source lines 89-94). -/
def traceBuckets (b t : List Int) : List (Int × List Int) :=
  t.foldl (fun bs a =>
    if bucketMem (binaryBuckets b) (a % 4096) then bucketAdd bs (a % 4096) a else bs) []

/-- Vote accumulation: for every bucket key of the binary, for every trace
address in that bucket, for every binary address in that bucket, record a
vote for the distance `binary - trace` (source lines 96-101). -/
def slideBuckets (b t : List Int) : List (Int × List Int) :=
  (binaryBuckets b).foldl (fun sb p =>
    (bucketFind (traceBuckets b t) p.1).foldl (fun sb2 ea =>
      p.2.foldl (fun sb3 a => bucketAdd sb3 (a - ea) ea) sb2) sb) []

/-- The `(vote count, candidate slide)` pairs (source lines 103-105). -/
def hitsFor (b t : List Int) : List (Nat × Int) :=
  (slideBuckets b t).map (fun p => (p.2.length, p.1))

/-- Descending comparison on `(count, slide)` pairs, the order used by
Python `hits.sort(reverse=True)` on tuples: larger count first, then larger
slide first. -/
def hitGe (p q : Nat × Int) : Bool :=
  decide (q.1 < p.1) || (decide (p.1 = q.1) && decide (q.2 ≤ p.2))

/-- Insertion step of the descending sort. -/
def insertHit (p : Nat × Int) : List (Nat × Int) → List (Nat × Int)
  | [] => [p]
  | q :: rest => if hitGe p q then p :: q :: rest else q :: insertHit p rest

/-- Descending sort of the hit list, modelling `hits.sort(reverse=True)`
(source line 107).  Only the head of the sorted list is ever consumed, and
candidate slides are distinct dictionary keys, so any sort that puts a
greatest pair first agrees with the Python code. -/
def sortHitsDesc (l : List (Nat × Int)) : List (Nat × Int) :=
  l.foldr insertHit []

/-- The whole of `_analyze_aslr` (source lines 70-124): returns
`(slide, m1, m2)` on success and `none` when `hits[0]` raises `IndexError`
because no vote exists, which the specification names `InsufficientEvidence`.
`m1` is built from the first and last disassembler address (source line 117)
and `m2` is `m1` shifted away from zero by the slide magnitude
(source lines 119-122). -/
def analyzeAslr (b t : List Int) : Option (Int × (Int × Int) × (Int × Int)) :=
  match sortHitsDesc (hitsFor b t) with
  | [] => none
  | (_, slide) :: _ =>
    let m1 : Int × Int := (b.headD 0, b.getLastD 0)
    let m2 : Int × Int :=
      if slide < 0 then (m1.1 - slide, m1.2 - slide) else (m1.1 + slide, m1.2 + slide)
    some (slide, m1, m2)

/-! ## Trace data model -/

/-- A trace segment: a run of executed instructions whose entry
`ips[relative_idx]` is a compressed reference (an index into the unique
address table `Trace.ip_addrs`), based at global index `base_idx`. -/
structure Segment where
  ips : List Nat
  base_idx : Nat
  length : Nat
deriving DecidableEq, Repr

/-- The trace collaborator: the table of unique executed addresses and the
segment structure. -/
structure Trace where
  ip_addrs : List Int
  segments : List Segment
deriving DecidableEq, Repr

/-! ## Unmapped-segment scan (`TraceAnalysis._analyze_unmapped`) -/

/-- The compressed indices whose address lies within the mapped interval,
modelling the set `mapped_ips` built on source lines 142-145. -/
def mappedIps (ips : List Int) (lo hi : Int) : List Nat :=
  (List.range ips.length).filter (fun i =>
    decide (lo ≤ ips.getD i 0) && decide (ips.getD i 0 ≤ hi))

/-- One iteration of the scan loop body (source lines 156-169).  The state is
`(last_good_idx, unmapped_entries)` and the input is
`(global index, compressed ip)`.  Note that the source tests truthiness of
`last_good_idx`, so the value 0 acts as the "unset" sentinel. -/
def stepScan (mapped : List Nat) (st : Nat × List Nat) (ic : Nat × Nat) : Nat × List Nat :=
  if !(mapped.contains ic.2) then
    (if st.1 ≠ 0 then (0, st.2 ++ [st.1]) else st)
  else
    (ic.1, st.2)

/-- The `(global index, compressed ip)` pairs visited for one segment:
`relative_idx` ranges over `range(0, seg.length)` and the global index is
`seg.base_idx + relative_idx` (source lines 156-157, 169). -/
def segPairs (seg : Segment) : List (Nat × Nat) :=
  (List.range seg.length).map (fun r => (seg.base_idx + r, seg.ips.getD r 0))

/-- The scan over all segments from the initial state `(0, [])`
(source lines 147-169). -/
def scanCore (mapped : List Nat) (segs : List Segment) : Nat × List Nat :=
  segs.foldl (fun st seg => (segPairs seg).foldl (stepScan mapped) st) (0, [])

/-- The whole of `_analyze_unmapped` (source lines 130-175), producing the
`unmapped_entry_points` list.  `lo, hi` are the bounds of `m2` of the first
remapped region (source line 135). -/
def analyzeUnmapped (ips : List Int) (lo hi : Int) (segs : List Segment) : List Nat :=
  (scanCore (mappedIps ips lo hi) segs).2

/-! ## The facade (`TraceAnalysis.__init__` / `_analyze`) -/

/-- The immutable state a successful construction leaves behind. -/
structure AnalysisResult where
  remapped_regions : List ((Int × Int) × (Int × Int))
  unmapped_entry_points : List Nat
deriving DecidableEq, Repr

/-- Construction of a `TraceAnalysis` (source lines 25-30 and 63-68):
slide analysis first, then the unmapped scan against `m2` of the single
region the slide analysis appended.  Failure of slide detection aborts the
whole construction. -/
def traceAnalysis (b : List Int) (tr : Trace) : Option AnalysisResult :=
  match analyzeAslr b tr.ip_addrs with
  | none => none
  | some (_, m1, m2) =>
    some ⟨[(m1, m2)], analyzeUnmapped tr.ip_addrs m2.1 m2.2 tr.segments⟩

/-! ## Public queries -/

/-- `TraceAnalysis.rebase_pointer` (source lines 36-47): first region pair
whose binary-space interval `m1` contains the address shifts it forward,
first pair whose trace-space interval `m2` contains it shifts it back,
otherwise the address passes through unchanged. -/
def rebase_pointer (regions : List ((Int × Int) × (Int × Int))) (address : Int) : Int :=
  match regions with
  | [] => address
  | (m1, m2) :: rest =>
    if m1.1 ≤ address ∧ address ≤ m1.2 then address + (m2.1 - m1.1)
    else if m2.1 ≤ address ∧ address ≤ m2.2 then address - (m2.1 - m1.1)
    else rebase_pointer rest address

/-- The loop of Python `bisect.bisect_right` on a list of naturals compared
against an integer query.  The extra fuel argument makes the `while lo < hi`
loop structurally recursive; `bisectRight` supplies fuel `a.length`, which
bounds `hi - lo`, so the fuel never runs out on the calls the code makes. -/
def bisectGo (a : List Nat) (x : Int) : Nat → Nat → Nat → Nat
  | 0, lo, _ => lo
  | fuel + 1, lo, hi =>
    if lo < hi then
      let mid := (lo + hi) / 2
      if x < (a.getD mid 0 : Int) then bisectGo a x fuel lo mid
      else bisectGo a x fuel (mid + 1) hi
    else lo

/-- `bisect.bisect_right(a, x)` over the whole list. -/
def bisectRight (a : List Nat) (x : Int) : Nat :=
  bisectGo a x a.length 0 a.length

/-- `TraceAnalysis.get_prev_mapped_idx` (source lines 49-57).  Python
evaluates `entries[bisect_right(entries, idx) - 1]`: when the bisect result
is 0 the index -1 wraps around to the LAST element of a non-empty list, and
only an empty list raises the `IndexError` that the handler turns into -1. -/
def get_prev_mapped_idx (entries : List Nat) (idx : Int) : Int :=
  let i := bisectRight entries idx
  if entries.length = 0 then -1
  else if i = 0 then (entries.getLastD 0 : Int)
  else (entries.getD (i - 1) 0 : Int)

/-! ## Specification-side definitions used to state the claims -/

/-- Well-formed segment layout: segments are ordered, non-overlapping and
logically contiguous starting at global index `n`, and each segment carries
exactly `length` compressed ips. -/
def contiguousFrom : Nat → List Segment → Prop
  | _, [] => True
  | n, seg :: rest =>
      seg.base_idx = n ∧ seg.length = seg.ips.length ∧ contiguousFrom (n + seg.length) rest

/-- Flattened compressed-ip stream of a segment list. -/
def flatIps (segs : List Segment) : List Nat :=
  (segs.map (fun s => s.ips)).flatten

/-- Pair every element of a list with its position, starting at `n`. -/
def idxFrom (n : Nat) : List Nat → List (Nat × Nat)
  | [] => []
  | c :: rest => (n, c) :: idxFrom (n + 1) rest

/-- Positional characterisation of the scan output over the classification
list `ms` (true = mapped), offset by `n`: position `r` contributes the global
index `n + r` exactly when that index is nonzero, is classified mapped, and
the next position exists and is classified unmapped, i.e. `n + r` is the
last mapped index immediately before a maximal unmapped run. -/
def specFrom (n : Nat) (ms : List Bool) : List Nat :=
  ((List.range ms.length).filter (fun r =>
    decide (0 < n + r) && ms.getD r false && !(ms.getD (r + 1) true))).map (fun r => n + r)

/-- Expected unmapped entry points for a classification list indexed from 0. -/
def entriesSpec (ms : List Bool) : List Nat :=
  specFrom 0 ms

/-- Reference recursion for the scan: `lg` is the pending last-good index
(0 meaning unset) and `n` the global index of the head of the list. -/
def scanRuns : Nat → Nat → List Bool → List Nat
  | _, _, [] => []
  | lg, n, m :: rest =>
    if m then scanRuns n (n + 1) rest
    else if lg ≠ 0 then lg :: scanRuns 0 (n + 1) rest
    else scanRuns 0 (n + 1) rest

/-! ## General helper lemmas -/

lemma getLastD_cons_irrel (z : Int) (zs : List Int) (d d' : Int) :
    (z :: zs).getLastD d = (z :: zs).getLastD d' := by
  rw [List.getLastD_cons, List.getLastD_cons]

lemma getLastD_mem : ∀ (l : List Int) (y : Int), (y :: l).getLastD 0 ∈ y :: l := by
  intro l
  induction l with
  | nil => intro y; simp
  | cons z zs ih =>
    intro y
    rw [List.getLastD_cons, getLastD_cons_irrel z zs y 0]
    exact List.mem_cons_of_mem _ (ih z)

lemma le_getLastD_sorted : ∀ (l : List Int), l.Sorted (· ≤ ·) →
    ∀ x ∈ l, x ≤ l.getLastD 0 := by
  intro l
  induction l with
  | nil => intro _ x hx; cases hx
  | cons y ys ih =>
    intro hs x hx
    rw [List.sorted_cons] at hs
    rcases ys with _ | ⟨z, zs⟩
    · rcases List.mem_cons.1 hx with rfl | hx
      · simp
      · cases hx
    · rw [List.getLastD_cons, getLastD_cons_irrel z zs y 0]
      rcases List.mem_cons.1 hx with rfl | hx
      · exact le_trans (hs.1 z (List.mem_cons_self _ _))
          (ih hs.2 z (List.mem_cons_self _ _))
      · exact ih hs.2 x hx

/-! ## C9: rebase_pointer passes unknown addresses through -/

/-- C9: rebase_address is a total function; for every address lying outside
both intervals of every recorded region pair it returns the address
unchanged (pass-through default), and it returns an address for any input
without raising (totality is structural in the embedding). -/
theorem claim_c9 (regions : List ((Int × Int) × (Int × Int))) (a : Int)
    (h : ∀ r ∈ regions, ¬(r.1.1 ≤ a ∧ a ≤ r.1.2) ∧ ¬(r.2.1 ≤ a ∧ a ≤ r.2.2)) :
    rebase_pointer regions a = a := by
  induction regions with
  | nil => rfl
  | cons r rest ih =>
    obtain ⟨h1, h2⟩ := h r (List.mem_cons_self _ _)
    obtain ⟨m1, m2⟩ := r
    simp only [rebase_pointer]
    rw [if_neg h1, if_neg h2]
    exact ih (fun r hr => h r (List.mem_cons_of_mem _ hr))

/-- C9 witness: a concrete address outside the single recorded region pair
passes through unchanged. -/
theorem claim_c9_witness :
    rebase_pointer [((0x1000, 0x2000), (0x5000, 0x6000))] 0x9000 = 0x9000 :=
  claim_c9 _ _ (by decide)

/-! ## C3: the rebase round trip -/

/-- C3 counterexample: a fully constructed analysis (binary addresses
0x1000 and 0x3000, single trace address 0x2000) detects slide 0x1000, so
m1 = [0x1000, 0x3000] and m2 = [0x2000, 0x4000] overlap; rebasing 0x1000
twice yields 0x3000, not 0x1000, refuting the claim as stated. -/
theorem claim_c3_counterexample :
    traceAnalysis [0x1000, 0x3000] ⟨[0x2000], [⟨[0], 0, 1⟩]⟩ =
      some ⟨[((0x1000, 0x3000), (0x2000, 0x4000))], []⟩ ∧
    ((0x1000 : Int) ≤ 0x1000 ∧ (0x1000 : Int) ≤ 0x3000) ∧
    rebase_pointer [((0x1000, 0x3000), (0x2000, 0x4000))]
      (rebase_pointer [((0x1000, 0x3000), (0x2000, 0x4000))] 0x1000) = 0x3000 ∧
    (0x3000 : Int) ≠ 0x1000 := by
  refine ⟨by decide, by decide, by decide, by decide⟩

/-- C3 amended: for a single region pair whose intervals have equal length
(as every constructed pair does) and are disjoint or identical, rebasing an
address of the m1 interval twice returns it unchanged. -/
theorem claim_c3_amended (m1 m2 : Int × Int) (a : Int)
    (hlen : m1.2 - m1.1 = m2.2 - m2.1)
    (hsep : m2.2 < m1.1 ∨ m1.2 < m2.1 ∨ m1 = m2)
    (ha : m1.1 ≤ a ∧ a ≤ m1.2) :
    rebase_pointer [(m1, m2)] (rebase_pointer [(m1, m2)] a) = a := by
  obtain ⟨l1, r1⟩ := m1
  obtain ⟨l2, r2⟩ := m2
  simp only [rebase_pointer, Prod.mk.injEq] at *
  rcases hsep with h | h | h <;> split_ifs <;> omega

/-- C3 witness: with disjoint intervals m1 = [0x1000, 0x1008] and
m2 = [0x5000, 0x5008], the address 0x1004 round-trips. -/
theorem claim_c3_witness :
    rebase_pointer [((0x1000, 0x1008), (0x5000, 0x5008))]
      (rebase_pointer [((0x1000, 0x1008), (0x5000, 0x5008))] 0x1004) = 0x1004 :=
  claim_c3_amended (0x1000, 0x1008) (0x5000, 0x5008) 0x1004
    (by decide) (by decide) (by decide)

/-! ## C2: shape of the constructed RemappedRegion -/

/-- C2 counterexample: with binary address 0x5000 and trace address 0x1000
the detected slide is +0x4000 and the code constructs
m2 = m1 + slide = [0x9000, 0x9000]; the claim demands
m2 = m1 - slide = [0x1000, 0x1000], so the claim fails for positive slides. -/
theorem claim_c2_counterexample :
    analyzeAslr [0x5000] [0x1000] =
      some (0x4000, (0x5000, 0x5000), (0x9000, 0x9000)) ∧
    (0x9000 : Int) ≠ 0x5000 - 0x4000 := by
  refine ⟨by decide, by decide⟩

/-- C2 amended: for every successful slide detection on an ascending binary
address list, m1 spans [min, max] of the binary addresses and m2 is m1
shifted by the absolute value of the slide (m2 = m1 - slide when the slide
is negative, m2 = m1 + slide otherwise); both intervals have equal length. -/
theorem claim_c2_amended (b t : List Int) (hb : b.Sorted (· ≤ ·))
    (slide : Int) (m1 m2 : Int × Int)
    (h : analyzeAslr b t = some (slide, m1, m2)) :
    m1.1 ∈ b ∧ m1.2 ∈ b ∧ (∀ x ∈ b, m1.1 ≤ x ∧ x ≤ m1.2) ∧
    m2.1 = m1.1 + (if slide < 0 then -slide else slide) ∧
    m2.2 = m1.2 + (if slide < 0 then -slide else slide) ∧
    m2.2 - m2.1 = m1.2 - m1.1 := by
  rcases b with _ | ⟨y, ys⟩
  · simp [show analyzeAslr [] t = none from rfl] at h
  rcases hs : sortHitsDesc (hitsFor (y :: ys) t) with _ | ⟨⟨c, s⟩, rest⟩
  · simp [analyzeAslr, hs] at h
  simp only [analyzeAslr, hs, List.headD_cons, Option.some.injEq, Prod.mk.injEq] at h
  obtain ⟨rfl, h2, h3⟩ := h
  subst h2
  subst h3
  refine ⟨List.mem_cons_self _ _, getLastD_mem ys y, ?_, ?_, ?_, ?_⟩
  · intro x hx
    refine ⟨?_, le_getLastD_sorted _ hb x hx⟩
    rw [List.sorted_cons] at hb
    rcases List.mem_cons.1 hx with rfl | hx
    · exact le_refl x
    · exact hb.1 x hx
  · split_ifs with hneg
    · simp only; ring
    · rfl
  · split_ifs with hneg
    · simp only; ring
    · rfl
  · split_ifs <;> simp

/-- C2 witness: binary address list [0x1000] with trace address 0x5000
gives slide -0x4000, m1 = [0x1000, 0x1000], m2 = [0x5000, 0x5000]. -/
theorem claim_c2_witness :
    ((0x5000 : Int), (0x5000 : Int)) =
      ((0x1000 : Int) + (if (-0x4000 : Int) < 0 then -(-0x4000) else -0x4000),
       (0x1000 : Int) + (if (-0x4000 : Int) < 0 then -(-0x4000) else -0x4000)) := by
  have h := claim_c2_amended [0x1000] [0x5000] (by simp)
    (-0x4000) (0x1000, 0x1000) (0x5000, 0x5000) (by decide)
  exact Prod.ext h.2.2.2.1 h.2.2.2.2.1

/-! ## C10 and C1: behaviour of get_prev_mapped_idx -/

lemma bisectGo_all_lt {a : List Nat} {x : Int} (hall : ∀ v ∈ a, x < (v : Int)) :
    ∀ (fuel lo hi : Nat), hi ≤ a.length → bisectGo a x fuel lo hi = lo := by
  intro fuel
  induction fuel with
  | zero => intro lo hi _; rfl
  | succ f ih =>
    intro lo hi hh
    rw [bisectGo]
    by_cases hlt : lo < hi
    · rw [if_pos hlt]
      have hmid : (lo + hi) / 2 < a.length := by omega
      have hmem : a.getD ((lo + hi) / 2) 0 ∈ a := by
        rw [List.getD_eq_getElem a 0 hmid]
        exact List.getElem_mem hmid
      rw [if_pos (hall _ hmem)]
      exact ih lo ((lo + hi) / 2) (by omega)
    · rw [if_neg hlt]

/-- C10: when the UnmappedEntryPoints sequence is empty the query returns
-1 for every idx, and when the sequence is non-empty and idx is strictly
below every recorded value the query returns the LAST (largest) element of
the sequence, because the Python index -1 wraps around. -/
theorem claim_c10 (entries : List Nat) (idx : Int) :
    (entries = [] → get_prev_mapped_idx entries idx = -1) ∧
    (entries ≠ [] → (∀ v ∈ entries, idx < (v : Int)) →
      get_prev_mapped_idx entries idx = (entries.getLastD 0 : Int)) := by
  constructor
  · rintro rfl; rfl
  · intro hne hall
    have h0 : bisectRight entries idx = 0 :=
      bisectGo_all_lt hall _ _ _ (le_refl _)
    simp [get_prev_mapped_idx, h0, List.length_eq_zero, hne]

/-- C10 witness: on the singleton sequence [5] a query below every element
returns the last element 5. -/
theorem claim_c10_witness : get_prev_mapped_idx [5] 3 = 5 :=
  (claim_c10 [5] 3).2 (by decide) (by decide)

/-- C1: evaluation at the failing input.  A fully constructed analysis
(binary address 0x1000, trace addresses 0x5000 and 0x9999, seven executed
instructions of which index 6 is unmapped) produces UnmappedEntryPoints
= [5]; the query get_prev_mapped_idx 3 has no recorded value at or below 3,
so the claim (and the specification) demand -1, but the code returns 5. -/
theorem claim_c1_failing :
    traceAnalysis [0x1000] ⟨[0x5000, 0x9999], [⟨[0, 0, 0, 0, 0, 0, 1], 0, 7⟩]⟩ =
      some ⟨[((0x1000, 0x1000), (0x5000, 0x5000))], [5]⟩ ∧
    get_prev_mapped_idx [5] 3 = 5 ∧
    ¬((5 : Int) ≤ 3) ∧ (5 : Int) ≠ -1 := by
  refine ⟨by decide, by decide, by decide, by decide⟩

/-! ## C6: the tie-break rule of the descending sort -/

lemma hitGe_refl (p : Nat × Int) : hitGe p p = true := by
  simp [hitGe]

lemma hitGe_total {p q : Nat × Int} (h : hitGe p q = false) : hitGe q p = true := by
  simp only [hitGe, Bool.or_eq_false_iff, Bool.and_eq_false_iff,
    decide_eq_false_iff_not, Bool.or_eq_true, Bool.and_eq_true,
    decide_eq_true_eq] at *
  omega

lemma hitGe_trans {p q r : Nat × Int} (h1 : hitGe p q = true)
    (h2 : hitGe q r = true) : hitGe p r = true := by
  simp only [hitGe, Bool.or_eq_true, Bool.and_eq_true, decide_eq_true_eq] at *
  omega

lemma insertHit_ne_nil (p : Nat × Int) (l : List (Nat × Int)) :
    insertHit p l ≠ [] := by
  cases l with
  | nil => simp [insertHit]
  | cons q rest => simp only [insertHit]; split <;> simp

lemma sortHitsDesc_eq_nil {l : List (Nat × Int)} :
    sortHitsDesc l = [] ↔ l = [] := by
  cases l with
  | nil => simp [sortHitsDesc]
  | cons x xs =>
    simp only [sortHitsDesc, List.foldr_cons]
    exact ⟨fun h => absurd h (insertHit_ne_nil _ _), fun h => by cases h⟩

lemma sortHitsDesc_head_max :
    ∀ (l : List (Nat × Int)) (top : Nat × Int) (rest : List (Nat × Int)),
      sortHitsDesc l = top :: rest →
      top ∈ l ∧ ∀ p ∈ l, hitGe top p = true := by
  intro l
  induction l with
  | nil => intro top rest h; cases h
  | cons x xs ih =>
    intro top rest h
    rw [sortHitsDesc, List.foldr_cons] at h
    rcases hxs : sortHitsDesc xs with _ | ⟨y, ys⟩
    · have hx : xs = [] := sortHitsDesc_eq_nil.1 hxs
      subst hx
      rw [show List.foldr insertHit [] ([] : List (Nat × Int)) = [] from rfl] at h
      rw [show insertHit x [] = [x] from rfl] at h
      obtain ⟨rfl, rfl⟩ : top = x ∧ rest = [] := by
        injection h with h1 h2; exact ⟨h1.symm, h2.symm⟩
      refine ⟨List.mem_cons_self _ _, ?_⟩
      intro p hp
      rcases List.mem_cons.1 hp with rfl | hp
      · exact hitGe_refl p
      · cases hp
    · obtain ⟨hy, hmax⟩ := ih y ys hxs
      rw [show List.foldr insertHit [] xs = sortHitsDesc xs from rfl, hxs] at h
      by_cases hxy : hitGe x y = true
      · rw [insertHit, if_pos hxy] at h
        obtain rfl : top = x := by injection h with h1 _; exact h1.symm
        refine ⟨List.mem_cons_self _ _, ?_⟩
        intro p hp
        rcases List.mem_cons.1 hp with rfl | hp
        · exact hitGe_refl p
        · exact hitGe_trans hxy (hmax p hp)
      · rw [insertHit, if_neg hxy] at h
        obtain rfl : top = y := by injection h with h1 _; exact h1.symm
        refine ⟨List.mem_cons_of_mem _ hy, ?_⟩
        intro p hp
        rcases List.mem_cons.1 hp with rfl | hp
        · exact hitGe_total (Bool.not_eq_true _ ▸ hxy :)
        · exact hmax p hp

/-- C6: when slide detection succeeds, the returned slide is the distance
component of a maximum of the (count, distance) vote pairs under the
descending lexicographic order hitGe, so among equal counts the numerically
larger distance wins. -/
theorem claim_c6 (b t : List Int) (slide : Int) (m1 m2 : Int × Int)
    (h : analyzeAslr b t = some (slide, m1, m2)) :
    ∃ c : Nat, (c, slide) ∈ hitsFor b t ∧
      ∀ p ∈ hitsFor b t, hitGe (c, slide) p = true := by
  rcases hs : sortHitsDesc (hitsFor b t) with _ | ⟨⟨c, s⟩, rest⟩
  · simp [analyzeAslr, hs] at h
  · simp only [analyzeAslr, hs, Option.some.injEq, Prod.mk.injEq] at h
    obtain ⟨rfl, -, -⟩ := h
    obtain ⟨hmem, hmax⟩ := sortHitsDesc_head_max _ _ _ hs
    exact ⟨c, hmem, hmax⟩

/-- C6 witness: with binary addresses 0x1000 and 0x3000 and the single
trace address 0x2000 the candidate slides -0x1000 and 0x1000 tie with one
vote each, and the detection returns 0x1000, the larger distance. -/
theorem claim_c6_witness :
    ∃ c : Nat, (c, (0x1000 : Int)) ∈ hitsFor [0x1000, 0x3000] [0x2000] ∧
      ∀ p ∈ hitsFor [0x1000, 0x3000] [0x2000],
        hitGe (c, (0x1000 : Int)) p = true :=
  claim_c6 [0x1000, 0x3000] [0x2000] 0x1000 (0x1000, 0x3000) (0x2000, 0x4000)
    (by decide)

/-! ## C4: failure condition of slide detection -/

lemma bucketAdd_ne_nil (bs : List (Int × List Int)) (k v : Int) :
    bucketAdd bs k v ≠ [] := by
  cases bs with
  | nil => simp [bucketAdd]
  | cons hd tl =>
    obtain ⟨k0, l0⟩ := hd
    simp only [bucketAdd]
    split <;> simp

lemma foldl_eq_nil_iff {α : Type} (f : List (Int × List Int) → α → List (Int × List Int))
    (P : α → Prop) (hf : ∀ bs a, f bs a = [] ↔ (bs = [] ∧ P a)) :
    ∀ (l : List α) (init : List (Int × List Int)),
      l.foldl f init = [] ↔ (init = [] ∧ ∀ a ∈ l, P a) := by
  intro l
  induction l with
  | nil => intro init; simp
  | cons x xs ih =>
    intro init
    rw [List.foldl_cons, ih, hf]
    simp only [List.forall_mem_cons]
    tauto

lemma forall_mem_const {α : Type} (l : List α) (Q : Prop) :
    (∀ x ∈ l, Q) ↔ (l = [] ∨ Q) := by
  cases l <;> simp
  exact fun hq _ _ => hq

lemma slideBuckets_eq_nil_iff (b t : List Int) :
    slideBuckets b t = [] ↔
      ∀ p ∈ binaryBuckets b, (bucketFind (traceBuckets b t) p.1 = [] ∨ p.2 = []) := by
  have hinner : ∀ (p : Int × List Int) (sb2 : List (Int × List Int)) (ea : Int),
      p.2.foldl (fun sb3 a => bucketAdd sb3 (a - ea) ea) sb2 = [] ↔
        (sb2 = [] ∧ p.2 = []) := by
    intro p sb2 ea
    rw [foldl_eq_nil_iff _ (fun _ => False)
      (by intro bs a; simp [bucketAdd_ne_nil]) p.2 sb2]
    simp [List.eq_nil_iff_forall_not_mem]
  have hmid : ∀ (p : Int × List Int) (sb : List (Int × List Int)),
      (bucketFind (traceBuckets b t) p.1).foldl (fun sb2 ea =>
        p.2.foldl (fun sb3 a => bucketAdd sb3 (a - ea) ea) sb2) sb = [] ↔
        (sb = [] ∧ (bucketFind (traceBuckets b t) p.1 = [] ∨ p.2 = [])) := by
    intro p sb
    rw [foldl_eq_nil_iff _ (fun _ => p.2 = []) (fun bs a => hinner p bs a) _ sb]
    rw [forall_mem_const]
  rw [slideBuckets,
    foldl_eq_nil_iff _ (fun p => bucketFind (traceBuckets b t) p.1 = [] ∨ p.2 = [])
      (fun bs p => hmid p bs) (binaryBuckets b) []]
  simp

lemma bucketMem_bucketAdd (bs : List (Int × List Int)) (k0 v k : Int) :
    bucketMem (bucketAdd bs k0 v) k = ((k0 == k) || bucketMem bs k) := by
  induction bs with
  | nil => simp [bucketAdd, bucketMem]
  | cons hd tl ih =>
    obtain ⟨k1, l1⟩ := hd
    simp only [bucketAdd]
    split
    · next heq => subst heq; simp [bucketMem]
    · simp only [bucketMem, List.any_cons] at *
      rw [ih]
      cases k1 == k <;> cases k0 == k <;> simp

lemma bucketMem_binaryBuckets (b : List Int) (k : Int) :
    bucketMem (binaryBuckets b) k = true ↔ ∃ x ∈ b, x % 4096 = k := by
  have main : ∀ (l : List Int) (init : List (Int × List Int)),
      bucketMem (l.foldl (fun bs a => bucketAdd bs (a % 4096) a) init) k = true ↔
        (bucketMem init k = true ∨ ∃ x ∈ l, x % 4096 = k) := by
    intro l
    induction l with
    | nil => intro init; simp
    | cons a rest ih =>
      intro init
      rw [List.foldl_cons, ih, bucketMem_bucketAdd]
      simp only [Bool.or_eq_true, beq_iff_eq, List.mem_cons]
      constructor
      · rintro (⟨h | h⟩ | ⟨x, hx, hk⟩)
        · exact Or.inr ⟨a, Or.inl rfl, h⟩
        · exact Or.inl h
        · exact Or.inr ⟨x, Or.inr hx, hk⟩
      · rintro (h | ⟨x, rfl | hx, hk⟩)
        · exact Or.inl (Or.inr h)
        · exact Or.inl (Or.inl hk)
        · exact Or.inr ⟨x, hx, hk⟩
  rw [binaryBuckets, main]
  simp [bucketMem]

lemma bucketFind_bucketAdd (bs : List (Int × List Int)) (k0 v k : Int) :
    bucketFind (bucketAdd bs k0 v) k =
      if k = k0 then bucketFind bs k ++ [v] else bucketFind bs k := by
  induction bs with
  | nil =>
    by_cases h : k = k0
    · subst h; simp [bucketAdd, bucketFind]
    · simp [bucketAdd, bucketFind, h, Ne.symm h]
  | cons hd tl ih =>
    obtain ⟨k1, l1⟩ := hd
    simp only [bucketAdd]
    by_cases h1 : k1 = k0
    · subst h1
      rw [if_pos rfl]
      by_cases h2 : k1 = k
      · subst h2
        simp [bucketFind]
      · simp only [bucketFind, if_neg h2]
        rw [if_neg (fun hh : k = k1 => h2 hh.symm)]
    · rw [if_neg h1]
      by_cases h2 : k1 = k
      · subst h2
        rw [if_neg (fun hh : k1 = k0 => h1 hh)]
        simp [bucketFind]
      · simp only [bucketFind, if_neg h2]
        exact ih

lemma bucketFind_traceBuckets (b t : List Int) (k : Int) :
    bucketFind (traceBuckets b t) k =
      t.filter (fun a =>
        decide (a % 4096 = k) && bucketMem (binaryBuckets b) (a % 4096)) := by
  have main : ∀ (l : List Int) (init : List (Int × List Int)),
      bucketFind (l.foldl (fun bs a =>
        if bucketMem (binaryBuckets b) (a % 4096) then bucketAdd bs (a % 4096) a else bs)
        init) k =
      bucketFind init k ++ l.filter (fun a =>
        decide (a % 4096 = k) && bucketMem (binaryBuckets b) (a % 4096)) := by
    intro l
    induction l with
    | nil => intro init; simp
    | cons a rest ih =>
      intro init
      rw [List.foldl_cons, List.filter_cons]
      by_cases hm : bucketMem (binaryBuckets b) (a % 4096) = true
      · rw [if_pos hm, ih, bucketFind_bucketAdd]
        by_cases hk : a % 4096 = k
        · subst hk
          simp [hm, List.append_assoc]
        · rw [if_neg (fun hh : k = a % 4096 => hk hh.symm)]
          simp [hk]
      · rw [if_neg hm, ih]
        simp only [Bool.not_eq_true] at hm
        simp [hm]
  rw [traceBuckets, main]
  simp [bucketFind]

lemma bucketMem_exists_entry {bs : List (Int × List Int)} {k : Int}
    (h : bucketMem bs k = true) : ∃ l, (k, l) ∈ bs := by
  rw [bucketMem, List.any_eq_true] at h
  obtain ⟨p, hp, hbeq⟩ := h
  obtain ⟨k1, l1⟩ := p
  rw [beq_iff_eq] at hbeq
  exact ⟨l1, by rwa [← hbeq]⟩

lemma bucketAdd_values_ne_nil {bs : List (Int × List Int)} {k v : Int}
    (h : ∀ p ∈ bs, p.2 ≠ []) : ∀ p ∈ bucketAdd bs k v, p.2 ≠ [] := by
  induction bs with
  | nil =>
    intro p hp
    simp only [bucketAdd, List.mem_singleton] at hp
    subst hp; simp
  | cons hd tl ih =>
    obtain ⟨k1, l1⟩ := hd
    intro p hp
    simp only [bucketAdd] at hp
    split at hp
    · rcases List.mem_cons.1 hp with rfl | hp
      · simp
      · exact h p (List.mem_cons_of_mem _ hp)
    · rcases List.mem_cons.1 hp with rfl | hp
      · exact h _ (List.mem_cons_self _ _)
      · exact ih (fun q hq => h q (List.mem_cons_of_mem _ hq)) p hp

lemma binaryBuckets_values_ne_nil (b : List Int) :
    ∀ p ∈ binaryBuckets b, p.2 ≠ [] := by
  have main : ∀ (l : List Int) (init : List (Int × List Int)),
      (∀ p ∈ init, p.2 ≠ []) →
      ∀ p ∈ l.foldl (fun bs a => bucketAdd bs (a % 4096) a) init, p.2 ≠ [] := by
    intro l
    induction l with
    | nil => intro init h; exact h
    | cons a rest ih =>
      intro init h
      rw [List.foldl_cons]
      exact ih _ (bucketAdd_values_ne_nil h)
  exact main b [] (by simp)

lemma analyzeAslr_eq_none_iff (b t : List Int) :
    analyzeAslr b t = none ↔ sortHitsDesc (hitsFor b t) = [] := by
  rcases hs : sortHitsDesc (hitsFor b t) with _ | ⟨⟨c, s⟩, rest⟩ <;>
    simp [analyzeAslr, hs]

/-- C4: slide detection fails (the specification calls this failure
InsufficientEvidence) exactly when the binary address set is empty or no
trace address shares its low-12-bit bucket with any binary address; in
every other case it succeeds, and on failure the whole construction aborts
so no RemappedRegion is ever built. -/
theorem claim_c4 (b : List Int) (tr : Trace) :
    (analyzeAslr b tr.ip_addrs = none ↔
      (b = [] ∨ ∀ a ∈ tr.ip_addrs, ∀ x ∈ b, a % 4096 ≠ x % 4096)) ∧
    (traceAnalysis b tr = none ↔ analyzeAslr b tr.ip_addrs = none) := by
  constructor
  · rw [analyzeAslr_eq_none_iff, sortHitsDesc_eq_nil, hitsFor,
      List.map_eq_nil_iff, slideBuckets_eq_nil_iff]
    constructor
    · intro H
      by_contra hcon
      push_neg at hcon
      obtain ⟨hb, a, ha, x, hx, hshare⟩ := hcon
      have hmem : bucketMem (binaryBuckets b) (a % 4096) = true :=
        (bucketMem_binaryBuckets b (a % 4096)).2 ⟨x, hx, hshare.symm⟩
      obtain ⟨l, hentry⟩ := bucketMem_exists_entry hmem
      rcases H (a % 4096, l) hentry with hfind | hnil
      · rw [bucketFind_traceBuckets] at hfind
        have : a ∈ tr.ip_addrs.filter (fun a2 =>
            decide (a2 % 4096 = a % 4096) &&
              bucketMem (binaryBuckets b) (a2 % 4096)) := by
          rw [List.mem_filter]
          exact ⟨ha, by simp [hmem]⟩
        rw [hfind] at this
        cases this
      · exact binaryBuckets_values_ne_nil b (a % 4096, l) hentry hnil
    · intro hcond p hp
      rcases hcond with rfl | hnoshare
      · cases hp
      · left
        rw [bucketFind_traceBuckets, List.filter_eq_nil_iff]
        intro a ha
        simp only [Bool.and_eq_true, decide_eq_true_eq, not_and]
        intro _
        rw [Bool.not_eq_true]
        by_contra hmem
        rw [Bool.not_eq_false, bucketMem_binaryBuckets] at hmem
        obtain ⟨x, hx, hxk⟩ := hmem
        exact hnoshare a ha x hx hxk.symm
  · rw [traceAnalysis]
    rcases ha : analyzeAslr b tr.ip_addrs with _ | ⟨s, m1, m2⟩ <;> simp

/-! ## C5, C7, C8: the unmapped-segment scan -/

lemma getD_zero_headD {α : Type} (l : List α) (d : α) : l.getD 0 d = l.headD d := by
  cases l <;> rfl

lemma stepScan_mapped (mapped : List Nat) (st : Nat × List Nat) (i c : Nat)
    (h : mapped.contains c = true) : stepScan mapped st (i, c) = (i, st.2) := by
  show (if !(mapped.contains c) then
      (if st.1 ≠ 0 then (0, st.2 ++ [st.1]) else st) else (i, st.2)) = (i, st.2)
  rw [h]
  rfl

lemma stepScan_unmapped_set (mapped : List Nat) (st : Nat × List Nat) (i c : Nat)
    (h : mapped.contains c = false) (hlg : st.1 ≠ 0) :
    stepScan mapped st (i, c) = (0, st.2 ++ [st.1]) := by
  show (if !(mapped.contains c) then
      (if st.1 ≠ 0 then (0, st.2 ++ [st.1]) else st) else (i, st.2)) = (0, st.2 ++ [st.1])
  rw [h]
  show (if st.1 ≠ 0 then (0, st.2 ++ [st.1]) else st) = (0, st.2 ++ [st.1])
  exact if_pos hlg

lemma stepScan_unmapped_unset (mapped : List Nat) (st : Nat × List Nat) (i c : Nat)
    (h : mapped.contains c = false) (hlg : st.1 = 0) :
    stepScan mapped st (i, c) = st := by
  show (if !(mapped.contains c) then
      (if st.1 ≠ 0 then (0, st.2 ++ [st.1]) else st) else (i, st.2)) = st
  rw [h]
  show (if st.1 ≠ 0 then (0, st.2 ++ [st.1]) else st) = st
  exact if_neg (fun hh => hh hlg)

lemma foldl_stepScan_idxFrom (mapped : List Nat) :
    ∀ (refs : List Nat) (n lg : Nat) (acc : List Nat),
      (List.foldl (stepScan mapped) (lg, acc) (idxFrom n refs)).2 =
        acc ++ scanRuns lg n (refs.map (fun c => mapped.contains c)) := by
  intro refs
  induction refs with
  | nil => intro n lg acc; simp [idxFrom, scanRuns]
  | cons c rest ih =>
    intro n lg acc
    rw [idxFrom, List.foldl_cons, List.map_cons]
    by_cases hc : mapped.contains c = true
    · rw [stepScan_mapped mapped _ n c hc, hc, ih]
      simp [scanRuns]
    · rw [Bool.not_eq_true] at hc
      rw [hc]
      by_cases hlg : lg = 0
      · subst hlg
        rw [stepScan_unmapped_unset mapped _ n c hc rfl, ih]
        simp [scanRuns]
      · rw [stepScan_unmapped_set mapped _ n c hc hlg, ih]
        simp [scanRuns, hlg]

lemma specFrom_cons (n : Nat) (m : Bool) (rest : List Bool) :
    specFrom n (m :: rest) =
      (if 0 < n ∧ m = true ∧ rest.headD true = false then [n] else []) ++
        specFrom (n + 1) rest := by
  unfold specFrom
  rw [List.length_cons, List.range_succ_eq_map, List.filter_cons]
  have hshift : List.filter (fun r => decide (0 < n + r) && (m :: rest).getD r false &&
        !((m :: rest).getD (r + 1) true)) (List.map Nat.succ (List.range rest.length)) =
      List.map Nat.succ (List.filter (fun r => decide (0 < (n + 1) + r) &&
        rest.getD r false && !(rest.getD (r + 1) true)) (List.range rest.length)) := by
    rw [List.filter_map]
    congr 1
    apply List.filter_congr
    intro r _
    simp only [Function.comp_apply, List.getD_cons_succ]
    rw [show n + (r + 1) = n + 1 + r from by omega]
  have hmapeq : ∀ (l : List Nat),
      List.map (fun r => n + r) (List.map Nat.succ l) =
        List.map (fun r => (n + 1) + r) l := by
    intro l
    rw [List.map_map]
    apply List.map_congr_left
    intro r _
    simp only [Function.comp_apply]
    omega
  have hiff : (decide (0 < n + 0) && (m :: rest).getD 0 false &&
      !((m :: rest).getD (0 + 1) true)) = true ↔
      (0 < n ∧ m = true ∧ rest.headD true = false) := by
    cases rest <;> simp [and_assoc]
  by_cases hC : (decide (0 < n + 0) && (m :: rest).getD 0 false &&
      !((m :: rest).getD (0 + 1) true)) = true
  · rw [if_pos hC, hshift, List.map_cons, hmapeq, if_pos (hiff.1 hC)]
    simp
  · rw [if_neg hC, hshift, hmapeq, if_neg (fun h2 => hC (hiff.2 h2))]
    simp

lemma scanRuns_eq_specFrom : ∀ (ms : List Bool) (n lg : Nat),
    scanRuns lg n ms =
      (if lg ≠ 0 ∧ ms.headD true = false then [lg] else []) ++ specFrom n ms := by
  intro ms
  induction ms with
  | nil => intro n lg; simp [scanRuns, specFrom]
  | cons m rest ih =>
    intro n lg
    rw [specFrom_cons]
    cases m with
    | true =>
      rw [show scanRuns lg n (true :: rest) = scanRuns n (n + 1) rest from by
        simp [scanRuns]]
      rw [ih (n + 1) n]
      simp only [List.headD_cons]
      rw [if_neg (show ¬(lg ≠ 0 ∧ true = false) from by simp)]
      have hcg : (0 < n ∧ True ∧ rest.headD true = false) ↔
          (n ≠ 0 ∧ rest.headD true = false) := by
        constructor
        · rintro ⟨h1, -, h3⟩; exact ⟨by omega, h3⟩
        · rintro ⟨h1, h3⟩; exact ⟨by omega, trivial, h3⟩
      rw [if_congr hcg rfl rfl]
      simp
    | false =>
      rw [show scanRuns lg n (false :: rest) =
          (if lg ≠ 0 then lg :: scanRuns 0 (n + 1) rest
           else scanRuns 0 (n + 1) rest) from by simp [scanRuns]]
      have hih : scanRuns 0 (n + 1) rest = specFrom (n + 1) rest := by
        rw [ih (n + 1) 0, if_neg (show ¬((0 : Nat) ≠ 0 ∧ rest.headD true = false)
          from by simp)]
        simp
      simp only [List.headD_cons]
      rw [hih, if_neg (show ¬(0 < n ∧ false = true ∧ rest.headD true = false)
        from by simp)]
      by_cases hlg : lg = 0
      · rw [if_neg (by simp [hlg]), if_neg (by simp [hlg])]
        simp
      · rw [if_pos hlg, if_pos (show lg ≠ 0 ∧ True from ⟨hlg, trivial⟩)]
        simp

lemma idxFrom_append : ∀ (a b2 : List Nat) (n : Nat),
    idxFrom n (a ++ b2) = idxFrom n a ++ idxFrom (n + a.length) b2 := by
  intro a
  induction a with
  | nil => intro b2 n; simp [idxFrom]
  | cons c cs ih =>
    intro b2 n
    simp only [List.cons_append, idxFrom, List.length_cons, List.append_eq]
    rw [show n + (cs.length + 1) = (n + 1) + cs.length from by omega]
    rw [ih b2 (n + 1)]

lemma rangeMap_idxFrom : ∀ (l : List Nat) (n : Nat),
    (List.range l.length).map (fun r => (n + r, l.getD r 0)) = idxFrom n l := by
  intro l
  induction l with
  | nil => intro n; simp [idxFrom]
  | cons c cs ih =>
    intro n
    rw [List.length_cons, List.range_succ_eq_map, List.map_cons, List.map_map]
    rw [show ((fun r => (n + r, (c :: cs).getD r 0)) ∘ Nat.succ) =
        (fun r => ((n + 1) + r, cs.getD r 0)) from ?_]
    · rw [ih (n + 1), idxFrom]
      simp
    · funext r
      simp only [Function.comp_apply, Nat.succ_eq_add_one, List.getD_cons_succ,
        Prod.mk.injEq]
      exact ⟨by omega, trivial⟩

lemma segPairs_eq_idxFrom (seg : Segment) (h : seg.length = seg.ips.length) :
    segPairs seg = idxFrom seg.base_idx seg.ips := by
  rw [segPairs, h]
  exact rangeMap_idxFrom seg.ips seg.base_idx

lemma scanCore_contig (mapped : List Nat) :
    ∀ (segs : List Segment) (n : Nat) (st : Nat × List Nat),
      contiguousFrom n segs →
      segs.foldl (fun st seg => (segPairs seg).foldl (stepScan mapped) st) st =
        List.foldl (stepScan mapped) st (idxFrom n (flatIps segs)) := by
  intro segs
  induction segs with
  | nil => intro n st _; simp [flatIps, idxFrom]
  | cons seg rest ih =>
    intro n st hc
    obtain ⟨hb, hl, hrest⟩ := hc
    have hrest2 : contiguousFrom (n + seg.ips.length) rest := by
      rw [← hl]; exact hrest
    rw [List.foldl_cons,
      show flatIps (seg :: rest) = seg.ips ++ flatIps rest from by simp [flatIps],
      idxFrom_append, List.foldl_append, segPairs_eq_idxFrom seg hl, hb]
    exact ih (n + seg.ips.length) _ hrest2

lemma analyzeUnmapped_spec (ips : List Int) (lo hi : Int) (segs : List Segment)
    (hc : contiguousFrom 0 segs) :
    analyzeUnmapped ips lo hi segs =
      entriesSpec ((flatIps segs).map (fun c => (mappedIps ips lo hi).contains c)) := by
  rw [analyzeUnmapped, scanCore, scanCore_contig _ _ _ _ hc, foldl_stepScan_idxFrom]
  rw [scanRuns_eq_specFrom, if_neg (by simp)]
  simp [entriesSpec]

/-- C5 amended: over a well-formed (ordered, non-overlapping, contiguous)
segment layout the scan output is exactly the set of global indices v such
that v is classified mapped, the following index exists and is classified
unmapped — i.e. one entry per maximal unmapped run that is preceded by a
mapped index, the entry being the last mapped index before the run — except
that the index 0 is never recorded because the scan conflates it with the
"no mapped index seen" sentinel. -/
theorem claim_c5 (ips : List Int) (lo hi : Int) (segs : List Segment)
    (hc : contiguousFrom 0 segs) :
    analyzeUnmapped ips lo hi segs =
      entriesSpec ((flatIps segs).map (fun c => (mappedIps ips lo hi).contains c)) :=
  analyzeUnmapped_spec ips lo hi segs hc

/-- C5 counterexample: trace index 0 is mapped and index 1 starts an
unmapped run, so the claim as stated demands the entry 0 to be recorded,
but the scan records nothing because last_good_idx 0 is falsy in Python. -/
theorem claim_c5_counterexample :
    (mappedIps [0x5000, 0x9999] 0x5000 0x5000).contains 0 = true ∧
    (mappedIps [0x5000, 0x9999] 0x5000 0x5000).contains 1 = false ∧
    analyzeUnmapped [0x5000, 0x9999] 0x5000 0x5000 [⟨[0, 1], 0, 2⟩] = [] := by
  refine ⟨by decide, by decide, by decide⟩

/-- C5 witness: a five-instruction single-segment trace with mapped indices
0, 1, 3 and unmapped indices 2, 4 records exactly the entries 1 and 3. -/
theorem claim_c5_witness :
    analyzeUnmapped [0x5000, 0x9999] 0x5000 0x5000 [⟨[0, 0, 1, 0, 1], 0, 5⟩] =
      entriesSpec ((flatIps [⟨[0, 0, 1, 0, 1], 0, 5⟩]).map
        (fun c => (mappedIps [0x5000, 0x9999] 0x5000 0x5000).contains c)) :=
  claim_c5 [0x5000, 0x9999] 0x5000 0x5000 [⟨[0, 0, 1, 0, 1], 0, 5⟩]
    (by simp [contiguousFrom])

lemma entriesSpec_pairwise (ms : List Bool) :
    List.Pairwise (· < ·) (entriesSpec ms) := by
  rw [entriesSpec, specFrom]
  exact List.Pairwise.map _ (fun a b h => by omega)
    (List.Pairwise.filter _ (List.pairwise_lt_range _))

lemma entriesSpec_mem {ms : List Bool} {v : Nat} (h : v ∈ entriesSpec ms) :
    0 < v ∧ v < ms.length ∧ ms.getD v false = true ∧ ms.getD (v + 1) true = false := by
  rw [entriesSpec, specFrom] at h
  simp only [List.mem_map, List.mem_filter, List.mem_range, Bool.and_eq_true,
    decide_eq_true_eq, Bool.not_eq_true'] at h
  obtain ⟨r, ⟨hr, ⟨hpos, hm⟩, hn⟩, rfl⟩ := h
  exact ⟨by omega, by omega, by simpa using hm, by simpa using hn⟩

/-- C7: on a well-formed segment layout, the UnmappedEntryPoints sequence of
a successfully constructed analysis is strictly ascending, and every
recorded value is a trace index whose instruction-pointer address (the
address table entry its compressed reference points at) lies within the
mapped trace-space interval m2 of the single constructed region. -/
theorem claim_c7 (b : List Int) (tr : Trace) (res : AnalysisResult)
    (h : traceAnalysis b tr = some res) (hc : contiguousFrom 0 tr.segments) :
    List.Pairwise (· < ·) res.unmapped_entry_points ∧
    ∀ v ∈ res.unmapped_entry_points, ∃ m1 m2 c a,
      res.remapped_regions = [(m1, m2)] ∧
      (flatIps tr.segments)[v]? = some c ∧
      tr.ip_addrs[c]? = some a ∧ m2.1 ≤ a ∧ a ≤ m2.2 := by
  rw [traceAnalysis] at h
  rcases ha : analyzeAslr b tr.ip_addrs with _ | ⟨s, m1, m2⟩
  · rw [ha] at h; cases h
  rw [ha, Option.some.injEq] at h
  subst h
  constructor
  · show List.Pairwise (· < ·) (analyzeUnmapped tr.ip_addrs m2.1 m2.2 tr.segments)
    rw [analyzeUnmapped_spec _ _ _ _ hc]
    exact entriesSpec_pairwise _
  · intro v hv
    replace hv : v ∈ analyzeUnmapped tr.ip_addrs m2.1 m2.2 tr.segments := hv
    rw [analyzeUnmapped_spec _ _ _ _ hc] at hv
    obtain ⟨-, hlen, hmapped, -⟩ := entriesSpec_mem hv
    rw [List.length_map] at hlen
    have hflat : (flatIps tr.segments)[v]? =
        some ((flatIps tr.segments).getD v 0) := by
      rw [List.getD_eq_getElem?_getD, List.getElem?_eq_getElem hlen]
      rfl
    set c := (flatIps tr.segments).getD v 0 with hcdef
    have hcontains : (mappedIps tr.ip_addrs m2.1 m2.2).contains c = true := by
      rw [List.getD_eq_getElem?_getD, List.getElem?_map, List.getElem?_eq_getElem hlen] at hmapped
      simp only [Option.map_some', Option.getD_some] at hmapped
      rw [hcdef, List.getD_eq_getElem?_getD, List.getElem?_eq_getElem hlen]
      exact hmapped
    have hcm : c ∈ mappedIps tr.ip_addrs m2.1 m2.2 := by
      simpa using hcontains
    rw [mappedIps, List.mem_filter, List.mem_range] at hcm
    obtain ⟨hclen, hbounds⟩ := hcm
    simp only [Bool.and_eq_true, decide_eq_true_eq] at hbounds
    refine ⟨m1, m2, c, tr.ip_addrs.getD c 0, rfl, hflat, ?_, hbounds.1, hbounds.2⟩
    rw [List.getD_eq_getElem?_getD, List.getElem?_eq_getElem hclen]
    rfl

/-- C7 witness: a concrete constructed analysis with entry points [1];
index 1 references address 0x5000 inside m2 = [0x5000, 0x5000]. -/
theorem claim_c7_witness :
    List.Pairwise (· < ·)
      (AnalysisResult.mk [((0x1000, 0x1000), (0x5000, 0x5000))] [1]).unmapped_entry_points ∧
    ∀ v ∈ (AnalysisResult.mk [((0x1000, 0x1000), (0x5000, 0x5000))] [1]).unmapped_entry_points,
      ∃ m1 m2 c a,
        (AnalysisResult.mk [((0x1000, 0x1000), (0x5000, 0x5000))] [1]).remapped_regions = [(m1, m2)] ∧
        (flatIps [⟨[0, 0, 1], 0, 3⟩])[v]? = some c ∧
        ([0x5000, 0x9999] : List Int)[c]? = some a ∧ m2.1 ≤ a ∧ a ≤ m2.2 :=
  claim_c7 [0x1000] ⟨[0x5000, 0x9999], [⟨[0, 0, 1], 0, 3⟩]⟩
    ⟨[((0x1000, 0x1000), (0x5000, 0x5000))], [1]⟩
    (by decide) (by simp [contiguousFrom])

/-- C8 counterexample: a segment layout whose base_idx values (5 then 2)
are neither monotone nor contiguous is accepted: construction completes
successfully and no error of any kind is raised. -/
theorem claim_c8_counterexample :
    ¬ contiguousFrom 0 [⟨[0], 5, 1⟩, ⟨[0], 2, 1⟩] ∧
    traceAnalysis [0x1000] ⟨[0x5000], [⟨[0], 5, 1⟩, ⟨[0], 2, 1⟩]⟩ =
      some ⟨[((0x1000, 0x1000), (0x5000, 0x5000))], []⟩ := by
  constructor
  · simp [contiguousFrom]
  · decide

/-- C8 amended: analysis construction performs no validation of the segment
base_idx layout: for segments that carry their declared number of
compressed ips, construction fails exactly when slide detection fails,
regardless of how the base_idx values are ordered, so no
InvalidSegmentLayout error exists or is propagated. -/
theorem claim_c8_amended (b : List Int) (tr : Trace)
    (_hw : ∀ seg ∈ tr.segments, seg.length = seg.ips.length) :
    (traceAnalysis b tr = none ↔ analyzeAslr b tr.ip_addrs = none) := by
  rw [traceAnalysis]
  rcases ha : analyzeAslr b tr.ip_addrs with _ | ⟨s, m1, m2⟩ <;> simp

/-- C8 witness: the misordered layout of the counterexample satisfies the
well-formed-length condition, and construction fails for it exactly when
slide detection does (here neither fails). -/
theorem claim_c8_witness :
    traceAnalysis [0x1000] ⟨[0x5000], [⟨[0], 5, 1⟩, ⟨[0], 2, 1⟩]⟩ = none ↔
      analyzeAslr [0x1000] [0x5000] = none :=
  claim_c8_amended [0x1000] ⟨[0x5000], [⟨[0], 5, 1⟩, ⟨[0], 2, 1⟩]⟩ (by decide)

end Tenet
